import Mathlib

/-!
Shallow embedding of the LiveTalking real-time avatar pipeline core
(`basereal.py`, `baseasr.py`, `museasr.py`, `musereal.py`) and proofs of
its specified properties.

Conventions of the embedding:
* audio chunk `kind` follows the source's integer `type` tag:
  `0` = normal speech, `1` = silence, `n ≥ 2` = custom audio state;
* Python `queue.Queue` instances are modelled as Lean lists, oldest
  element first; `put_nowait` appends at the tail when the length is
  below capacity, `get_nowait` pops the head;
* machine time is modelled by rational timestamps.
-/

/-- An audio chunk as it travels through the pipeline: the payload is
abstracted to a `Nat`, the `kind` field is the source's `type` tag
(`0` normal speech, `1` silence, `≥ 2` custom audio state). -/
structure AudioChunk where
  pcm : Nat := 0
  kind : Nat
  deriving Repr, DecidableEq

/-- Ping-pong traversal of a finite avatar asset cycle, from
`BaseReal.mirror_index` / `musereal.__mirror_index`:
`turn = index // size; res = index % size;
 if turn % 2 == 0: res else: size - res - 1`. -/
def mirror_index (size index : Nat) : Nat :=
  let turn := index / size
  let res := index % size
  if turn % 2 = 0 then res else size - res - 1

/-- Exceptions raised by the external synthesis call in
`musereal.inference`, classified the way the source's `except` clause
classifies them: a `RuntimeError` whose message names an SDPA kernel
failure (`No execution plans support the graph` / `No available
kernel`), or anything else. -/
inductive SynthErr where
  | sdpaKernel : SynthErr
  | other : SynthErr
  deriving Repr, DecidableEq

/-- One entry of the synthesis result queue, from
`res_frame_queue.put((res_frame, __mirror_index(length,index), audio_frames[i*2:i*2+2]))`:
`pixels = none` on the all-silence path, the mirrored cycle position,
and the two correlated audio chunks. -/
structure RenderResult where
  pixels : Option Nat
  outIndex : Nat
  audioPair : List AudioChunk
  deriving Repr, DecidableEq

/-- Input consumed by one iteration of the `inference` worker loop: the
`2 * batch_size` audio chunks pulled from `audio_out_queue`, together
with the outcome of the external synthesis call (`unet`/`vae`) and the
outcome of its one math-only retry. -/
structure BatchInput where
  frames : List AudioChunk
  synth : Except SynthErr (List Nat)
  retry : Except SynthErr (List Nat)
  deriving Repr

/-- Silence classification of `musereal.inference`: `is_all_silence`
starts `True` and is cleared by any chunk with `type == 0`. -/
def isAllSilence (frames : List AudioChunk) : Bool :=
  frames.foldl (fun acc f => if f.kind = 0 then false else acc) true

/-- The emission loop shared by both branches of `inference`: the i-th
output is paired with `__mirror_index(length, index + i)` and with
`audio_frames[2*i : 2*i+2]`, and the worker's `index` advances once per
emission. -/
def emitResults (len st : Nat) (pix : List (Option Nat)) (frames : List AudioChunk) :
    List RenderResult :=
  (List.range pix.length).map fun i =>
    { pixels := pix.getD i none
      outIndex := mirror_index len (st + i)
      audioPair := (frames.drop (2 * i)).take 2 }

/-- Outcome of the synthesis call with the source's retry logic: a
successful call is used as-is; an SDPA-kernel `RuntimeError` triggers
exactly one math-only retry whose own outcome (success or exception)
is final; any other exception is re-raised. -/
def effectiveSynth (s r : Except SynthErr (List Nat)) : Except SynthErr (List Nat) :=
  match s with
  | Except.ok v => Except.ok v
  | Except.error SynthErr.sdpaKernel => r
  | Except.error SynthErr.other => Except.error SynthErr.other

/-- One iteration of the `inference` worker loop body on a dequeued
batch: classify silence over the `2 * batch_size` chunks; if all-silent
emit `batch_size` results with `pixels = None` (never touching the
synthesis call), otherwise run the synthesis call (with its retry
policy) and emit one result per reconstructed output; an uncaught
exception escapes the loop. -/
def processBatch (bs len st : Nat) (b : BatchInput) :
    Except SynthErr (List RenderResult × Nat) :=
  if isAllSilence b.frames then
    Except.ok (emitResults len st (List.replicate bs none) b.frames, st + bs)
  else
    match effectiveSynth b.synth b.retry with
    | Except.ok recon =>
        Except.ok (emitResults len st (recon.map some) b.frames, st + recon.length)
    | Except.error e => Except.error e

/-- The `inference` worker loop run over a finite list of dequeued
batches starting from index `st`: returns the emitted results in
order, the final worker index, and `some e` when an uncaught exception
`e` terminated the thread (in which case later batches are never
processed). -/
def inferenceRun (bs len : Nat) : Nat → List BatchInput →
    List RenderResult × Nat × Option SynthErr
  | st, [] => ([], st, none)
  | st, b :: rest =>
    match processBatch bs len st b with
    | Except.ok (out, st1) =>
        let r := inferenceRun bs len st1 rest
        (out ++ r.1, r.2)
    | Except.error e => ([], st, some e)

/-- A batch the worker can fully process: either all-silent, or its
synthesis call (after the retry policy) succeeds with exactly
`batch_size` outputs — the external synthesis contract. -/
def goodBatch (bs : Nat) (b : BatchInput) : Bool :=
  isAllSilence b.frames ||
    match effectiveSynth b.synth b.retry with
    | Except.ok v => v.length == bs
    | Except.error _ => false

/-- Silence criterion in the spec's words, for comparison with the
code's `isAllSilence`: every correlated chunk has kind `silence`. -/
def allSilenceSpec (frames : List AudioChunk) : Bool :=
  frames.all fun c => c.kind == 1

/-- A purely silent pair of audio chunks (kind `1`). -/
def silentFrames : List AudioChunk :=
  [{ kind := 1 }, { kind := 1 }]

/-- A pair of normal-speech audio chunks (kind `0`). -/
def voicedFrames : List AudioChunk :=
  [{ kind := 0 }, { kind := 0 }]

/-- A pair of custom-audio-state chunks (kind `2`), the case the source
treats as silence although their kind is not the silence kind. -/
def customFrames : List AudioChunk :=
  [{ kind := 2 }, { kind := 2 }]

/-- A batch input of two custom-state chunks whose synthesis call
would succeed with one output frame, used to exhibit the silence
classification of custom-state audio. -/
def customBatch : BatchInput :=
  { frames := customFrames, synth := Except.ok [9], retry := Except.ok [9] }

/-- An all-silent batch input for `batch_size = 1` (the synthesis-call
fields are never consulted on the silent path). -/
def silentBatch : BatchInput :=
  { frames := silentFrames, synth := Except.ok [], retry := Except.ok [] }

/-- A voiced batch input for `batch_size = 1` whose synthesis call
succeeds with one output frame. -/
def okBatch : BatchInput :=
  { frames := voicedFrames, synth := Except.ok [7], retry := Except.ok [7] }

/-- A voiced batch input whose synthesis call raises a non-SDPA
exception; its retry field is irrelevant because the source re-raises
such exceptions without retrying. -/
def badBatch : BatchInput :=
  { frames := voicedFrames, synth := Except.error SynthErr.other, retry := Except.ok [7] }

/-- Ten-batch workload in which the synthesis call raises on batch #3:
batches 1, 2 and 4 through 10 succeed. -/
def tenBatches : List BatchInput :=
  [okBatch, okBatch, badBatch, okBatch, okBatch, okBatch, okBatch, okBatch, okBatch, okBatch]

/-- The `block` branch of `BaseASR.put_audio_frame`: an unbounded
`while True` retry loop around `queue.put(..., timeout=chunk/sample_rate)`.
The queue's content at the n-th attempt is given by the trace `qs`
(the concurrent consumer may have made room between attempts); the
loop is modelled with explicit fuel, one unit per attempt, and returns
the queue content after the successful insertion. -/
def blockPushLoop (cap : Nat) (qs : Nat → List Nat) (c : Nat) : Nat → Nat → Option (List Nat)
  | _, 0 => none
  | i, fuel + 1 =>
    if (qs i).length < cap then some (qs i ++ [c]) else blockPushLoop cap qs c (i + 1) fuel

/-- The watermark kept resident by the `drop` branch of
`BaseASR.put_audio_frame`: `keep_recent = max(1, self.fps // 2)`,
about half a second of chunks. -/
def keep_recent (fps : Nat) : Nat := max 1 (fps / 2)

/-- The trimming loop of the `drop` branch:
`while qsize() > keep_recent: get_nowait()`, popping the oldest chunk
each round; returns the trimmed queue and the number of evicted
chunks. -/
def trimKeep (keep : Nat) : List Nat → List Nat × Nat
  | [] => ([], 0)
  | x :: t =>
    if keep < (x :: t).length then
      let r := trimKeep keep t
      (r.1, r.2 + 1)
    else (x :: t, 0)

/-- The `drop` branch of `BaseASR.put_audio_frame`: proactively trim to
the keep watermark, try `put_nowait`, on `queue.Full` trim again and
retry once, and drop the incoming chunk if the queue is still full.
Returns the new queue, the number of chunks evicted from the queue,
and whether the incoming chunk itself was dropped. -/
def put_audio_frame_drop (cap keep : Nat) (q : List Nat) (c : Nat) :
    List Nat × Nat × Bool :=
  let t1 := trimKeep keep q
  if t1.1.length < cap then (t1.1 ++ [c], t1.2, false)
  else
    let t2 := trimKeep keep t1.1
    if t2.1.length < cap then (t2.1 ++ [c], t1.2 + t2.2, false)
    else (t2.1, t1.2 + t2.2, true)

/-- The feature queue paired with the parallel audio-output queue, as
manipulated by `MuseASR._push_feat_with_backpressure`: evicting a
feature batch also evicts its correlated audio entries. -/
structure FeatState where
  featQ : List Nat
  audioQ : List Nat
  deriving Repr, DecidableEq

/-- `feat_queue.put_nowait`: append at the tail when below capacity,
otherwise `queue.Full`. -/
def featTryPut (cap : Nat) (q : List Nat) (x : Nat) : Option (List Nat) :=
  if q.length < cap then some (q ++ [x]) else none

/-- One eviction round of the drop path of
`_push_feat_with_backpressure`: pop the stale head batch of the
feature queue (if any) and up to `2 * batch_size` of its correlated
audio entries from the output queue. -/
def featEvictOnce (audioPer : Nat) (st : FeatState) : FeatState :=
  match st.featQ with
  | [] => st
  | _ :: t => { featQ := t, audioQ := st.audioQ.drop audioPer }

/-- The bounded retry loop of the drop path (`for _ in range(3)`), with
the final `put(..., timeout=0.01)` attempt at fuel 0: each round
evicts once and retries the insertion. -/
def pushFeatIter (cap audioPer x : Nat) : Nat → FeatState → FeatState × Bool
  | 0, st =>
    match featTryPut cap st.featQ x with
    | some q => ({ st with featQ := q }, true)
    | none => (st, false)
  | fuel + 1, st =>
    let st1 := featEvictOnce audioPer st
    match featTryPut cap st1.featQ x with
    | some q => ({ st1 with featQ := q }, true)
    | none => pushFeatIter cap audioPer x fuel st1

/-- The drop path of `MuseASR._push_feat_with_backpressure`: try a
direct `put_nowait`, then up to 3 evict-and-retry rounds, then one
final timed put; returns the resulting queues and whether the batch
was inserted. -/
def push_feat_drop (cap audioPer : Nat) (st : FeatState) (x : Nat) : FeatState × Bool :=
  match featTryPut cap st.featQ x with
  | some q => ({ st with featQ := q }, true)
  | none => pushFeatIter cap audioPer x 3 st

/-- The speaking/silent state machine of the spec's AVSyncOutput. -/
inductive SpeakState where
  | Silent : SpeakState
  | Speaking : SpeakState
  deriving Repr, DecidableEq

/-- The queues drained by `BaseASR.flush_talk` (`self.queue`,
`self.output_queue`, `self.feat_queue`) together with the speaking
state machine reset by the TTS side of `BaseReal.flush_talk`. -/
structure PipelineQueues where
  audioQ : List Nat
  outputQ : List Nat
  featQ : List Nat
  speakState : SpeakState
  deriving Repr, DecidableEq

/-- `BaseASR._drain_queue_nowait`: `get_nowait` until `queue.Empty`. -/
def drainQueue : List Nat → List Nat
  | [] => []
  | _ :: t => drainQueue t

/-- Modelled from the spec: `ttsreal.py` (the TTS half of
`BaseReal.flush_talk`) is not among the given sources; per the spec,
`flush()` "drains all three queues and resets the state machine", so
the TTS-side reset is modelled as forcing the `Silent` state. -/
def ttsFlushState (_ : SpeakState) : SpeakState := SpeakState.Silent

/-- `BaseReal.flush_talk`: the TTS flush (spec-modelled state reset)
followed by `BaseASR.flush_talk` draining the three queues. -/
def flush_talk (st : PipelineQueues) : PipelineQueues :=
  { audioQ := drainQueue st.audioQ
    outputQ := drainQueue st.outputQ
    featQ := drainQueue st.featQ
    speakState := ttsFlushState st.speakState }

/-- Silence test of `BaseReal.process_frames`:
`raw_silence = (audio_frames[0][1] != 0 and audio_frames[1][1] != 0)`. -/
def rawSilence (p : AudioChunk × AudioChunk) : Bool :=
  (p.1.kind != 0) && (p.2.kind != 0)

/-- Silence test in the spec's words, for comparison with the code's
`rawSilence`: both chunks in the pair have the silence kind. -/
def rawSilenceSpec (p : AudioChunk × AudioChunk) : Bool :=
  (p.1.kind == 1) && (p.2.kind == 1)

/-- One step of the speaking-hysteresis update in
`BaseReal.process_frames`: on a non-silent pair `_last_voice_ts = now`,
then `current_speaking = (not raw_silence) or (now - _last_voice_ts <= hangover)`.
Returns the updated `_last_voice_ts` and `current_speaking`. -/
def speakingStep (hang last now : ℚ) (p : AudioChunk × AudioChunk) : ℚ × Bool :=
  let last1 := if rawSilence p then last else now
  (last1, (!(rawSilence p)) || decide (now - last1 ≤ hang))

/-- The same step computed with the spec's wording of `raw_silence`
(`rawSilenceSpec`), used only to compare against the code's step. -/
def speakingStepSpec (hang last now : ℚ) (p : AudioChunk × AudioChunk) : ℚ × Bool :=
  let last1 := if rawSilenceSpec p then last else now
  (last1, (!(rawSilenceSpec p)) || decide (now - last1 ≤ hang))

/-- The hysteresis state threaded over a sequence of consumed
RenderResults, each carrying its consumption time and audio pair;
returns the final `_last_voice_ts` and the per-result
`current_speaking` values. -/
def speakingRun (hang : ℚ) : ℚ → List (ℚ × (AudioChunk × AudioChunk)) → ℚ × List Bool
  | last, [] => (last, [])
  | last, e :: rest =>
    let s := speakingStep hang last e.1 e.2
    let r := speakingRun hang s.1 rest
    (r.1, s.2 :: r.2)

/-- `BaseReal.put_audio_file` after decoding: `while streamlen >= chunk:`
push `stream[idx:idx+chunk]` and advance by `chunk`; the trailing
remainder shorter than `chunk` is never pushed. Returns the pushed
chunks in offset order. -/
def put_audio_file (chunk : Nat) (stream : List Nat) : List (List Nat) :=
  if _h : 0 < chunk ∧ chunk ≤ stream.length then
    (stream.take chunk) :: put_audio_file chunk (stream.drop chunk)
  else []
termination_by stream.length
decreasing_by simp only [List.length_drop]; omega

/-- Queue-content trace used to witness the block-push theorem: the
queue is full (2 chunks) at attempts 0-2 and has room from attempt 3
on. -/
def traceW : Nat → List Nat := fun n => if n < 3 then [5, 6] else [5]

/-- A saturated two-batch feature-queue state used to witness the
feature-queue drop-policy theorem. -/
def featStW : FeatState := { featQ := [1, 2], audioQ := [6, 7, 8] }

/-- A pair of normal-speech chunks as consumed by `process_frames`. -/
def voicedPair : AudioChunk × AudioChunk := ({ kind := 0 }, { kind := 0 })

/-- A pair of silence-kind chunks as consumed by `process_frames`. -/
def silentPair : AudioChunk × AudioChunk := ({ kind := 1 }, { kind := 1 })

/-- A pair of custom-audio-state chunks as consumed by
`process_frames`. -/
def customPair : AudioChunk × AudioChunk := ({ kind := 2 }, { kind := 2 })

/-!  Helper lemmas shared by the claim theorems. -/

theorem silenceFold (l : List AudioChunk) (acc : Bool) :
    l.foldl (fun a f => if f.kind = 0 then false else a) acc
      = (acc && l.all fun c => decide (c.kind ≠ 0)) := by
  induction l generalizing acc with
  | nil => simp
  | cons f t ih =>
    rw [List.foldl_cons, ih]
    by_cases hf : f.kind = 0
    · simp [hf]
    · simp [hf]

theorem isAllSilence_eq_true_iff (frames : List AudioChunk) :
    isAllSilence frames = true ↔ ∀ c ∈ frames, c.kind ≠ 0 := by
  rw [isAllSilence, silenceFold]
  simp [List.all_eq_true]

theorem emitResults_length (len st : Nat) (pix : List (Option Nat))
    (frames : List AudioChunk) :
    (emitResults len st pix frames).length = pix.length := by
  simp [emitResults]

theorem emitResults_map_outIndex (len st : Nat) (pix : List (Option Nat))
    (frames : List AudioChunk) :
    (emitResults len st pix frames).map RenderResult.outIndex
      = (List.range pix.length).map fun i => mirror_index len (st + i) := by
  simp [emitResults, List.map_map, Function.comp]

theorem processBatch_good (bs len st : Nat) (b : BatchInput)
    (hb : goodBatch bs b = true) :
    ∃ out, processBatch bs len st b = Except.ok (out, st + bs) ∧
      out.length = bs ∧
      out.map RenderResult.outIndex
        = (List.range bs).map fun i => mirror_index len (st + i) := by
  by_cases hs : isAllSilence b.frames
  · refine ⟨emitResults len st (List.replicate bs none) b.frames, ?_, ?_, ?_⟩
    · simp [processBatch, hs]
    · simp [emitResults_length]
    · rw [emitResults_map_outIndex]
      simp
  · unfold goodBatch at hb
    rcases he : effectiveSynth b.synth b.retry with err | v
    · rw [he] at hb
      simp [hs] at hb
    · rw [he] at hb
      simp [hs] at hb
      refine ⟨emitResults len st (v.map some) b.frames, ?_, ?_, ?_⟩
      · simp [processBatch, hs, he, hb]
      · simp [emitResults_length, hb]
      · rw [emitResults_map_outIndex]
        simp [hb]

theorem inferenceRun_good_aux (bs len : Nat) (batches : List BatchInput) :
    (∀ b ∈ batches, goodBatch bs b = true) → ∀ st,
      (inferenceRun bs len st batches).2.2 = none ∧
      (inferenceRun bs len st batches).2.1 = st + batches.length * bs ∧
      (inferenceRun bs len st batches).1.map RenderResult.outIndex
        = (List.range (batches.length * bs)).map fun j => mirror_index len (st + j) := by
  induction batches with
  | nil => intro _ st; simp [inferenceRun]
  | cons b t ih =>
    intro hb st
    obtain ⟨out, hpb, hlen, hmap⟩ :=
      processBatch_good bs len st b (hb b (List.mem_cons_self b t))
    obtain ⟨ih1, ih2, ih3⟩ :=
      ih (fun x hx => hb x (List.mem_cons_of_mem _ hx)) (st + bs)
    have hsplit : (b :: t).length * bs = bs + t.length * bs := by
      simp [List.length_cons, Nat.succ_mul, Nat.add_comm]
    refine ⟨?_, ?_, ?_⟩
    · simp only [inferenceRun, hpb]
      exact ih1
    · simp only [inferenceRun, hpb]
      rw [ih2, hsplit]
      ring
    · simp only [inferenceRun, hpb]
      rw [List.map_append, hmap, ih3, hsplit, List.range_add,
        List.map_append, List.map_map]
      congr 1
      apply List.map_congr_left
      intro j _
      simp [Function.comp, Nat.add_assoc]

theorem inferenceRun_stops_at_error (bs len : Nat) (bad : BatchInput)
    (rest : List BatchInput) (e : SynthErr)
    (h1 : isAllSilence bad.frames = false)
    (h2 : effectiveSynth bad.synth bad.retry = Except.error e) :
    ∀ (pre : List BatchInput), (∀ b ∈ pre, goodBatch bs b = true) → ∀ st,
      (inferenceRun bs len st (pre ++ bad :: rest)).2.2 = some e ∧
      (inferenceRun bs len st (pre ++ bad :: rest)).1.length = pre.length * bs ∧
      (inferenceRun bs len st (pre ++ bad :: rest)).2.1 = st + pre.length * bs := by
  intro pre
  induction pre with
  | nil =>
    intro _ st
    have hpb : processBatch bs len st bad = Except.error e := by
      simp [processBatch, h1, h2]
    simp [inferenceRun, hpb]
  | cons b t ih =>
    intro hpre st
    obtain ⟨out, hpb, hlen, _⟩ :=
      processBatch_good bs len st b (hpre b (List.mem_cons_self b t))
    obtain ⟨iht1, iht2, iht3⟩ :=
      ih (fun x hx => hpre x (List.mem_cons_of_mem _ hx)) (st + bs)
    refine ⟨?_, ?_, ?_⟩
    · simp only [List.cons_append, inferenceRun, hpb, List.append_eq]
      exact iht1
    · simp only [List.cons_append, inferenceRun, hpb, List.length_append, List.append_eq]
      rw [hlen, iht2]
      simp [List.length_cons, Nat.succ_mul]
      ring
    · simp only [List.cons_append, inferenceRun, hpb, List.append_eq]
      rw [iht3]
      simp [List.length_cons, Nat.succ_mul]
      ring

/-!  Claim theorems. -/

/-- C1: over any sequence of fully processed FeatureBatches (all-silent
or with a successful synthesis call producing `batch_size` outputs),
the `inference` worker never terminates, its `index` after `n` batches
equals its starting index plus `n * batch_size`, it emits exactly
`n * batch_size` RenderResults, and their emitted cycle positions are
the mirror images of the consecutive, gapless, duplicate-free logical
indices `st, st+1, ..., st + n*batch_size - 1` — in both the
all-silence branch and the real-synthesis branch. -/
theorem inference_frame_index_advance (bs len st : Nat) (batches : List BatchInput)
    (hb : ∀ b ∈ batches, goodBatch bs b = true) :
    (inferenceRun bs len st batches).2.2 = none ∧
    (inferenceRun bs len st batches).2.1 = st + batches.length * bs ∧
    (inferenceRun bs len st batches).1.length = batches.length * bs ∧
    (inferenceRun bs len st batches).1.map RenderResult.outIndex
      = (List.range (batches.length * bs)).map fun j => mirror_index len (st + j) := by
  obtain ⟨h1, h2, h3⟩ := inferenceRun_good_aux bs len batches hb st
  refine ⟨h1, h2, ?_, h3⟩
  have hl := congrArg List.length h3
  simpa using hl

/-- Witness for `inference_frame_index_advance`: one all-silent batch
followed by one voiced batch, `batch_size = 1`, cycle length 4,
starting index 0. -/
theorem inference_frame_index_advance_witness :
    (∀ b ∈ [silentBatch, okBatch], goodBatch 1 b = true) ∧
    ((inferenceRun 1 4 0 [silentBatch, okBatch]).2.2 = none ∧
      (inferenceRun 1 4 0 [silentBatch, okBatch]).2.1 = 0 + 2 * 1 ∧
      (inferenceRun 1 4 0 [silentBatch, okBatch]).1.length = 2 * 1 ∧
      (inferenceRun 1 4 0 [silentBatch, okBatch]).1.map RenderResult.outIndex
        = (List.range (2 * 1)).map fun j => mirror_index 4 (0 + j)) :=
  ⟨by decide, inference_frame_index_advance 1 4 0 [silentBatch, okBatch] (by decide)⟩

/-- C2 counterexample: with `batch_size = 1`, ten batches whose
synthesis call raises a non-SDPA exception on batch #3, the worker
run terminates with that exception after emitting only the 2
RenderResults of batches 1 and 2 — not the 9 results for batches
1, 2, 4-10 that the claim requires, and the worker thread does not
survive the exception. -/
theorem inference_exception_cex :
    (inferenceRun 1 1 0 tenBatches).2.2 = some SynthErr.other ∧
    (inferenceRun 1 1 0 tenBatches).1.length = 2 := by decide

/-- C2 (amended): only a RuntimeError whose message marks an SDPA
kernel failure is caught, and then the synthesis call is retried
exactly once with the math-only backend, the batch being emitted
normally if the retry succeeds; any other exception — or a failing
retry — propagates out of the loop and terminates the worker thread,
so a failure on batch `k` leaves exactly the results of batches
`1..k-1` emitted (their `frame_index` advanced by `batch_size` each)
and later batches are never processed. -/
theorem inference_exception_semantics (bs len st : Nat) (pre : List BatchInput)
    (bad : BatchInput) (rest : List BatchInput) (e : SynthErr)
    (hpre : ∀ b ∈ pre, goodBatch bs b = true)
    (h1 : isAllSilence bad.frames = false)
    (h2 : effectiveSynth bad.synth bad.retry = Except.error e) :
    ((inferenceRun bs len st (pre ++ bad :: rest)).2.2 = some e ∧
      (inferenceRun bs len st (pre ++ bad :: rest)).1.length = pre.length * bs ∧
      (inferenceRun bs len st (pre ++ bad :: rest)).2.1 = st + pre.length * bs) ∧
    ∀ st2 b2 v, isAllSilence (BatchInput.frames b2) = false →
      BatchInput.synth b2 = Except.error SynthErr.sdpaKernel →
      BatchInput.retry b2 = Except.ok v →
      processBatch bs len st2 b2 =
        Except.ok (emitResults len st2 (v.map some) (BatchInput.frames b2), st2 + v.length) := by
  refine ⟨inferenceRun_stops_at_error bs len bad rest e h1 h2 pre hpre st, ?_⟩
  intro st2 b2 v hv hsyn hret
  simp [processBatch, hv, effectiveSynth, hsyn, hret]

/-- Witness for `inference_exception_semantics`: one good batch, then
the failing batch, then one more batch that is never processed. -/
theorem inference_exception_semantics_witness :
    ((∀ b ∈ [silentBatch], goodBatch 1 b = true) ∧
      isAllSilence badBatch.frames = false ∧
      effectiveSynth badBatch.synth badBatch.retry = Except.error SynthErr.other) ∧
    (((inferenceRun 1 1 0 ([silentBatch] ++ badBatch :: [okBatch])).2.2 = some SynthErr.other ∧
        (inferenceRun 1 1 0 ([silentBatch] ++ badBatch :: [okBatch])).1.length =
          [silentBatch].length * 1 ∧
        (inferenceRun 1 1 0 ([silentBatch] ++ badBatch :: [okBatch])).2.1 =
          0 + [silentBatch].length * 1) ∧
      ∀ st2 b2 v, isAllSilence (BatchInput.frames b2) = false →
        BatchInput.synth b2 = Except.error SynthErr.sdpaKernel →
        BatchInput.retry b2 = Except.ok v →
        processBatch 1 1 st2 b2 =
          Except.ok (emitResults 1 st2 (v.map some) (BatchInput.frames b2), st2 + v.length)) :=
  ⟨⟨by decide, by decide, rfl⟩,
    inference_exception_semantics 1 1 0 [silentBatch] badBatch [okBatch] SynthErr.other
      (by decide) (by decide) rfl⟩

/-- C3 counterexample: a batch of two custom-state chunks (kind 2) is
classified `is_all_silence` by the code although neither chunk has the
silence kind, and the synthesis call is skipped (all emitted pixels
are `None`) although the claim requires any non-silence chunk to force
real synthesis. -/
theorem silence_classification_cex :
    isAllSilence customFrames = true ∧
    allSilenceSpec customFrames = false ∧
    ((processBatch 1 5 0 customBatch).toOption.map fun p =>
        p.1.map RenderResult.pixels) = some [none] := by
  decide

/-- C3 (amended): the worker classifies a batch `is_all_silence` iff no
chunk of the batch has the normal-speech kind — silence-kind and
custom-state chunks alike count as silent; when all-silent it emits
`batch_size` RenderResults whose pixels are all `None`, and the
outcome is independent of the synthesis call (it is skipped); any
normal-speech chunk in the batch forces real synthesis, whose outputs
are emitted one RenderResult each. -/
theorem silence_classification (bs len st : Nat) (b : BatchInput) :
    (isAllSilence b.frames = true ↔ ∀ c ∈ b.frames, c.kind ≠ 0) ∧
    (isAllSilence b.frames = true →
      processBatch bs len st b =
        Except.ok (emitResults len st (List.replicate bs none) b.frames, st + bs) ∧
      (emitResults len st (List.replicate bs none) b.frames).length = bs ∧
      (∀ rr ∈ emitResults len st (List.replicate bs none) b.frames, rr.pixels = none) ∧
      ∀ s2 r2, processBatch bs len st { b with synth := s2, retry := r2 } =
        processBatch bs len st b) ∧
    ((∃ c ∈ b.frames, c.kind = 0) → ∀ v,
      effectiveSynth b.synth b.retry = Except.ok v →
      processBatch bs len st b =
        Except.ok (emitResults len st (v.map some) b.frames, st + v.length)) := by
  refine ⟨isAllSilence_eq_true_iff b.frames, ?_, ?_⟩
  · intro hs
    refine ⟨by simp [processBatch, hs], by simp [emitResults_length], ?_, ?_⟩
    · intro rr hrr
      simp only [emitResults, List.mem_map, List.mem_range] at hrr
      obtain ⟨i, _, hrr⟩ := hrr
      rw [← hrr]
      simp [List.getD]
    · intro s2 r2
      simp [processBatch, hs]
  · rintro ⟨c, hc, hck⟩ v hv
    have hs : ¬ isAllSilence b.frames = true := fun h =>
      ((isAllSilence_eq_true_iff b.frames).1 h c hc) hck
    simp [processBatch, hs, hv]

/-- Witness for `silence_classification` at the all-silent two-chunk
batch, `batch_size = 1`, cycle length 2, starting index 0. -/
theorem silence_classification_witness :
    (isAllSilence silentBatch.frames = true ↔ ∀ c ∈ silentBatch.frames, c.kind ≠ 0) ∧
    (isAllSilence silentBatch.frames = true →
      processBatch 1 2 0 silentBatch =
        Except.ok (emitResults 2 0 (List.replicate 1 none) silentBatch.frames, 0 + 1) ∧
      (emitResults 2 0 (List.replicate 1 none) silentBatch.frames).length = 1 ∧
      (∀ rr ∈ emitResults 2 0 (List.replicate 1 none) silentBatch.frames, rr.pixels = none) ∧
      ∀ s2 r2, processBatch 1 2 0 { silentBatch with synth := s2, retry := r2 } =
        processBatch 1 2 0 silentBatch) ∧
    ((∃ c ∈ silentBatch.frames, c.kind = 0) → ∀ v,
      effectiveSynth silentBatch.synth silentBatch.retry = Except.ok v →
      processBatch 1 2 0 silentBatch =
        Except.ok (emitResults 2 0 (v.map some) silentBatch.frames, 0 + v.length)) :=
  silence_classification 1 2 0 silentBatch

/-- C4: for every positive asset-cycle size, `mirror_index` agrees with
`index mod size` when `index div size` is even and with
`size - 1 - (index mod size)` otherwise, its value always lies in
`[0, size)`, and it is periodic with period `2 * size`. -/
theorem mirror_index_spec (size index : Nat) (h : 0 < size) :
    (mirror_index size index =
      if (index / size) % 2 = 0 then index % size else size - 1 - (index % size)) ∧
    mirror_index size index < size ∧
    mirror_index size (index + 2 * size) = mirror_index size index := by
  have hr : index % size < size := Nat.mod_lt _ h
  refine ⟨?_, ?_, ?_⟩
  · by_cases hc : (index / size) % 2 = 0
    · simp [mirror_index, hc]
    · simp [mirror_index, hc]
      omega
  · by_cases hc : (index / size) % 2 = 0
    · simp [mirror_index, hc]
      omega
    · simp [mirror_index, hc]
      omega
  · have hdiv : (index + 2 * size) / size = index / size + 2 := by
      rw [Nat.add_mul_div_right _ _ h]
    have hmod : (index + 2 * size) % size = index % size := by
      rw [Nat.add_mul_mod_self_right]
    simp [mirror_index, hdiv, hmod, Nat.add_mod_right]

/-- Witness for `mirror_index_spec` at `size = 3`, `index = 7`. -/
theorem mirror_index_spec_witness :
    0 < 3 ∧
    ((mirror_index 3 7 =
        if (7 / 3) % 2 = 0 then 7 % 3 else 3 - 1 - (7 % 3)) ∧
      mirror_index 3 7 < 3 ∧
      mirror_index 3 (7 + 2 * 3) = mirror_index 3 7) :=
  ⟨by decide, mirror_index_spec 3 7 (by decide)⟩

theorem blockPushLoop_succeeds (cap : Nat) (qs : Nat → List Nat) (c : Nat) :
    ∀ (fuel start n : Nat), start ≤ n → n < start + fuel → (qs n).length < cap →
      ∃ i, start ≤ i ∧ i ≤ n ∧ (qs i).length < cap ∧
        (∀ j, start ≤ j → j < i → ¬ (qs j).length < cap) ∧
        blockPushLoop cap qs c start fuel = some (qs i ++ [c]) := by
  intro fuel
  induction fuel with
  | zero =>
    intro start n h1 h2 _
    exact absurd h2 (by omega)
  | succ fuel ih =>
    intro start n h1 h2 h3
    by_cases hs : (qs start).length < cap
    · exact ⟨start, le_refl _, h1, hs, fun j hj1 hj2 => absurd hj1 (by omega),
        by simp [blockPushLoop, hs]⟩
    · have hne : start ≠ n := fun he => hs (he ▸ h3)
      obtain ⟨i, hi1, hi2, hi3, hi4, hi5⟩ := ih (start + 1) n (by omega) (by omega) h3
      refine ⟨i, by omega, hi2, hi3, ?_, by simp [blockPushLoop, hs, hi5]⟩
      intro j hj1 hj2
      rcases Nat.eq_or_lt_of_le hj1 with hj | hj
      · exact hj ▸ hs
      · exact hi4 j hj hj2

/-- C5: the `block` policy of `put_audio_frame` never drops a chunk:
whenever the consumer eventually makes room (the queue trace `qs`
shows occupancy below capacity at some attempt `n`), the unbounded
retry loop — run with any fuel covering that attempt — returns the
queue with the chunk appended at the first attempt that has room,
having only throttled the caller on the earlier full attempts. -/
theorem put_audio_frame_block_no_loss (cap : Nat) (qs : Nat → List Nat) (c : Nat)
    (n : Nat) (hroom : (qs n).length < cap) (fuel : Nat) (hfuel : n < fuel) :
    ∃ i, i ≤ n ∧ (qs i).length < cap ∧
      (∀ j, j < i → ¬ (qs j).length < cap) ∧
      blockPushLoop cap qs c 0 fuel = some (qs i ++ [c]) := by
  obtain ⟨i, _, hi2, hi3, hi4, hi5⟩ :=
    blockPushLoop_succeeds cap qs c fuel 0 n (Nat.zero_le n) (by omega) hroom
  exact ⟨i, hi2, hi3, fun j hj => hi4 j (Nat.zero_le j) hj, hi5⟩

/-- Witness for `put_audio_frame_block_no_loss`: capacity 2, a trace
that is full during attempts 0-2 and has room from attempt 3 on,
fuel 4. -/
theorem put_audio_frame_block_no_loss_witness :
    (traceW 3).length < 2 ∧ 3 < 4 ∧
    ∃ i, i ≤ 3 ∧ (traceW i).length < 2 ∧
      (∀ j, j < i → ¬ (traceW j).length < 2) ∧
      blockPushLoop 2 traceW 9 0 4 = some (traceW i ++ [9]) :=
  ⟨by decide, by decide, put_audio_frame_block_no_loss 2 traceW 9 3 (by decide) 4 (by decide)⟩

theorem trimKeep_eq (keep : Nat) (q : List Nat) :
    trimKeep keep q = (q.drop (q.length - keep), q.length - keep) := by
  induction q with
  | nil => simp [trimKeep]
  | cons x t ih =>
    by_cases hk : keep < (x :: t).length
    · have hk2 : keep ≤ t.length := by
        simp [List.length_cons] at hk
        omega
      have h3 : (x :: t).length - keep = (t.length - keep) + 1 := by
        simp [List.length_cons]
        omega
      rw [trimKeep, if_pos hk, ih, h3]
      simp [List.drop_succ_cons]
    · have h0 : (x :: t).length - keep = 0 := by omega
      rw [trimKeep, if_neg hk, h0]
      simp

/-- C6: under the `drop` policy of `put_audio_frame`, starting from any
queue within capacity: occupancy never exceeds the configured
capacity; at most `capacity - keep_watermark` chunks are evicted from
the queue per push; whenever the queue trimmed to the keep watermark
(`max(1, fps // 2)`, about half a second of chunks) has room, the
incoming chunk is inserted after the proactive trim and is not
dropped; and the incoming chunk is dropped only when the queue is
still full after trimming (which requires the watermark to be at least
the capacity). -/
theorem put_audio_frame_drop_spec (fps cap : Nat) (q : List Nat) (c : Nat)
    (hq : q.length ≤ cap) :
    (put_audio_frame_drop cap (keep_recent fps) q c).1.length ≤ cap ∧
    (put_audio_frame_drop cap (keep_recent fps) q c).2.1 ≤ cap - keep_recent fps ∧
    (min q.length (keep_recent fps) < cap →
      (put_audio_frame_drop cap (keep_recent fps) q c).1
        = q.drop (q.length - keep_recent fps) ++ [c] ∧
      (put_audio_frame_drop cap (keep_recent fps) q c).2.2 = false) ∧
    ((put_audio_frame_drop cap (keep_recent fps) q c).2.2 = true →
      cap ≤ keep_recent fps ∧ q.length = cap) := by
  have hkeep : 1 ≤ keep_recent fps := le_max_left 1 (fps / 2)
  set keep := keep_recent fps with hkdef
  have ht1 := trimKeep_eq keep q
  have hl1 : (q.drop (q.length - keep)).length = min q.length keep := by
    simp [List.length_drop]
    omega
  by_cases hroom : min q.length keep < cap
  · have hlt2 : q.length - (q.length - keep) < cap := by omega
    have hres : put_audio_frame_drop cap keep q c
        = (q.drop (q.length - keep) ++ [c], q.length - keep, false) := by
      rw [put_audio_frame_drop, ht1]
      simp [hlt2]
    rw [hres]
    refine ⟨?_, ?_, fun _ => ⟨rfl, rfl⟩, fun hco => by simp at hco⟩
    · show (q.drop (q.length - keep) ++ [c]).length ≤ cap
      rw [List.length_append, hl1]
      simp
      omega
    · show q.length - keep ≤ cap - keep
      omega
  · -- still full after trimming: the second trim removes nothing and
    -- the incoming chunk is dropped
    have hfull : min q.length keep = cap := by omega
    have hge2 : ¬ q.length - (q.length - keep) < cap := by omega
    have ht2 := trimKeep_eq keep (q.drop (q.length - keep))
    have h0 : (q.drop (q.length - keep)).length - keep = 0 := by omega
    have hres : put_audio_frame_drop cap keep q c
        = (q.drop (q.length - keep), q.length - keep, true) := by
      have h0a : q.length - (q.length - keep) - keep = 0 := by omega
      rw [put_audio_frame_drop, ht1]
      simp [ht2, h0a, hge2]
    rw [hres]
    refine ⟨?_, ?_, fun hcon => absurd hcon hroom, fun _ => by omega⟩
    · show (q.drop (q.length - keep)).length ≤ cap
      rw [hl1]
      omega
    · show q.length - keep ≤ cap - keep
      omega

/-- Witness for `put_audio_frame_drop_spec`: `fps = 4` (keep watermark
2), capacity 3, a full queue of 3 chunks. -/
theorem put_audio_frame_drop_spec_witness :
    [1, 2, 3].length ≤ 3 ∧
    ((put_audio_frame_drop 3 (keep_recent 4) [1, 2, 3] 9).1.length ≤ 3 ∧
      (put_audio_frame_drop 3 (keep_recent 4) [1, 2, 3] 9).2.1 ≤ 3 - keep_recent 4 ∧
      (min [1, 2, 3].length (keep_recent 4) < 3 →
        (put_audio_frame_drop 3 (keep_recent 4) [1, 2, 3] 9).1
          = [1, 2, 3].drop ([1, 2, 3].length - keep_recent 4) ++ [9] ∧
        (put_audio_frame_drop 3 (keep_recent 4) [1, 2, 3] 9).2.2 = false) ∧
      ((put_audio_frame_drop 3 (keep_recent 4) [1, 2, 3] 9).2.2 = true →
        3 ≤ keep_recent 4 ∧ [1, 2, 3].length = 3)) :=
  ⟨by decide, put_audio_frame_drop_spec 4 3 [1, 2, 3] 9 (by decide)⟩

/-- C7: under the `drop` policy of `_push_feat_with_backpressure`, with
at least one slot of capacity and a queue within capacity, the push
always succeeds and leaves the queue within capacity; a non-saturated
queue takes the batch directly with no eviction; a saturated queue
evicts exactly the one stale head batch (well within the up-to-3
bound) together with its `2 * batch_size` correlated audio entries and
then inserts the new batch; and in the concrete scenario — capacity 2,
five batches pushed back-to-back with no consumer — the final queue
holds exactly the two most-recently-pushed batches. -/
theorem push_feat_drop_spec (cap audioPer : Nat) (st : FeatState) (x : Nat)
    (hcap : 1 ≤ cap) (hlen : st.featQ.length ≤ cap) :
    ((push_feat_drop cap audioPer st x).2 = true ∧
      (push_feat_drop cap audioPer st x).1.featQ.length ≤ cap ∧
      (st.featQ.length < cap →
        push_feat_drop cap audioPer st x = ({ st with featQ := st.featQ ++ [x] }, true)) ∧
      (st.featQ.length = cap →
        push_feat_drop cap audioPer st x =
          ({ featQ := st.featQ.tail ++ [x], audioQ := st.audioQ.drop audioPer }, true))) ∧
    ([1, 2, 3, 4, 5].foldl (fun s y => (push_feat_drop 2 2 s y).1)
        { featQ := [], audioQ := [] }).featQ = [4, 5] := by
  refine ⟨?_, by decide⟩
  by_cases hr : st.featQ.length < cap
  · have hres : push_feat_drop cap audioPer st x = ({ st with featQ := st.featQ ++ [x] }, true) := by
      rw [push_feat_drop, featTryPut]
      simp [hr]
    rw [hres]
    refine ⟨rfl, ?_, fun _ => rfl, fun hcon => by omega⟩
    show (st.featQ ++ [x]).length ≤ cap
    rw [List.length_append]
    simp
    omega
  · have hsat : st.featQ.length = cap := by omega
    rcases hq : st.featQ with _ | ⟨h, t⟩
    · rw [hq] at hsat
      simp at hsat
      omega
    · have hsat3 : t.length + 1 = cap := by
        have hs2 := hq ▸ hsat
        simpa using hs2
      have htl : t.length < cap := by omega
      have hncond : ¬ t.length + 1 < cap := by omega
      have hres : push_feat_drop cap audioPer st x =
          ({ featQ := t ++ [x], audioQ := st.audioQ.drop audioPer }, true) := by
        rw [push_feat_drop, hq]
        simp [featTryPut, hncond, pushFeatIter, featEvictOnce, hq, htl]
      rw [hres]
      refine ⟨rfl, ?_, fun hcon => by simp at hcon; omega, fun _ => by simp⟩
      show (t ++ [x]).length ≤ cap
      rw [List.length_append]
      simp
      omega

/-- Witness for `push_feat_drop_spec`: capacity 2, eviction batch size
2, a saturated queue of two batches. -/
theorem push_feat_drop_spec_witness :
    (1 ≤ 2 ∧ featStW.featQ.length ≤ 2) ∧
    (((push_feat_drop 2 2 featStW 3).2 = true ∧
        (push_feat_drop 2 2 featStW 3).1.featQ.length ≤ 2 ∧
        (featStW.featQ.length < 2 →
          push_feat_drop 2 2 featStW 3 = ({ featStW with featQ := featStW.featQ ++ [3] }, true)) ∧
        (featStW.featQ.length = 2 →
          push_feat_drop 2 2 featStW 3 =
            ({ featQ := featStW.featQ.tail ++ [3], audioQ := featStW.audioQ.drop 2 }, true))) ∧
      ([1, 2, 3, 4, 5].foldl (fun s y => (push_feat_drop 2 2 s y).1)
          { featQ := [], audioQ := [] }).featQ = [4, 5]) :=
  ⟨⟨by decide, by decide⟩, push_feat_drop_spec 2 2 featStW 3 (by decide) (by decide)⟩

/-- C8: `flush_talk` empties the audio ingest queue, the audio-pair
output queue and the feature queue, resets the speaking state machine
to `Silent` (the TTS half is modelled from the spec), and is
idempotent: flushing twice equals flushing once. -/
theorem flush_talk_spec (st : PipelineQueues) :
    flush_talk (flush_talk st) = flush_talk st ∧
    (flush_talk st).audioQ = [] ∧
    (flush_talk st).outputQ = [] ∧
    (flush_talk st).featQ = [] ∧
    (flush_talk st).speakState = SpeakState.Silent := by
  have hd : ∀ l : List Nat, drainQueue l = [] := by
    intro l
    induction l with
    | nil => rfl
    | cons y t ih => exact ih
  simp [flush_talk, ttsFlushState, hd]

theorem speakingRun_length (hang : ℚ) (l : List (ℚ × (AudioChunk × AudioChunk))) :
    ∀ last, (speakingRun hang last l).2.length = l.length := by
  induction l with
  | nil => intro last; simp [speakingRun]
  | cons e t ih => intro last; simp [speakingRun, ih]

theorem speakingRun_append_parts (hang : ℚ) (l1 l2 : List (ℚ × (AudioChunk × AudioChunk))) :
    ∀ last,
      (speakingRun hang last (l1 ++ l2)).1
          = (speakingRun hang (speakingRun hang last l1).1 l2).1 ∧
      (speakingRun hang last (l1 ++ l2)).2
          = (speakingRun hang last l1).2
              ++ (speakingRun hang (speakingRun hang last l1).1 l2).2 := by
  induction l1 with
  | nil => intro last; simp [speakingRun]
  | cons e t ih =>
    intro last
    obtain ⟨ih1, ih2⟩ := ih (speakingStep hang last e.1 e.2).1
    constructor
    · simp [speakingRun, ih1]
    · simp [speakingRun, ih2]

theorem speakingRun_silent_within (hang tv : ℚ) :
    ∀ (post : List (ℚ × (AudioChunk × AudioChunk))),
      (∀ e ∈ post, rawSilence e.2 = true) →
      (∀ e ∈ post, e.1 - tv ≤ hang) →
      (speakingRun hang tv post).1 = tv ∧
        ∀ b ∈ (speakingRun hang tv post).2, b = true := by
  intro post
  induction post with
  | nil =>
    intro _ _
    simp [speakingRun]
  | cons e rest ih =>
    intro hs ht
    have he := hs e (List.mem_cons_self e rest)
    have hte := ht e (List.mem_cons_self e rest)
    have hstep : speakingStep hang tv e.1 e.2 = (tv, decide (e.1 - tv ≤ hang)) := by
      simp [speakingStep, he]
    obtain ⟨ih1, ih2⟩ := ih (fun x hx => hs x (List.mem_cons_of_mem _ hx))
      (fun x hx => ht x (List.mem_cons_of_mem _ hx))
    constructor
    · simp [speakingRun, hstep, ih1]
    · intro b hb
      simp only [speakingRun, hstep, List.mem_cons] at hb
      rcases hb with hb | hb
      · rw [hb]
        exact decide_eq_true hte
      · exact ih2 b hb

/-- C9 counterexample: a pair of custom-state chunks (kind 2): the code
computes `raw_silence = true` for it although neither chunk is of the
silence kind, so with a stale `last_voice_timestamp` the code reports
not-speaking while the claim's formula (`raw_silence` = both chunks
silence-kind) reports speaking. -/
theorem raw_silence_cex :
    rawSilence customPair = true ∧
    rawSilenceSpec customPair = false ∧
    (speakingStep (7 / 20) 0 100 customPair).2 = false ∧
    (speakingStepSpec (7 / 20) 0 100 customPair).2 = true := by
  refine ⟨by decide, by decide, ?_, ?_⟩
  · simp [speakingStep, rawSilence, customPair]
    norm_num
  · simp [speakingStepSpec, rawSilenceSpec, customPair]

/-- C9 (amended): `process_frames` computes `raw_silence` as "neither
chunk of the audio pair has the normal-speech kind" (custom-state
chunks count as silent), sets `last_voice_timestamp := now` and
`currently_speaking := true` on every pair containing a normal-speech
chunk, and on raw-silent pairs keeps the timestamp and sets
`currently_speaking` iff `now - last_voice_timestamp ≤ hangover`;
consequently, over any consumed sequence whose suffix is one voiced
pair at time `tv` followed by raw-silent pairs within the hangover of
`tv`, `currently_speaking` is true from the voiced RenderResult on,
and the final `last_voice_timestamp` is `tv`. -/
theorem speaking_hysteresis (hang last0 tv : ℚ)
    (pre post : List (ℚ × (AudioChunk × AudioChunk))) (vp : AudioChunk × AudioChunk)
    (hv : rawSilence vp = false)
    (hpost_sil : ∀ e ∈ post, rawSilence e.2 = true)
    (hpost_t : ∀ e ∈ post, e.1 - tv ≤ hang) :
    (∀ (last now : ℚ) (p : AudioChunk × AudioChunk), rawSilence p = false →
      speakingStep hang last now p = (now, true)) ∧
    (∀ (last now : ℚ) (p : AudioChunk × AudioChunk), rawSilence p = true →
      speakingStep hang last now p = (last, decide (now - last ≤ hang))) ∧
    (speakingRun hang last0 (pre ++ (tv, vp) :: post)).1 = tv ∧
    ∀ b ∈ ((speakingRun hang last0 (pre ++ (tv, vp) :: post)).2.drop pre.length),
      b = true := by
  obtain ⟨happ1, happ2⟩ := speakingRun_append_parts hang pre ((tv, vp) :: post) last0
  have hstep : speakingStep hang (speakingRun hang last0 pre).1 tv vp = (tv, true) := by
    simp [speakingStep, hv]
  obtain ⟨hsil1, hsil2⟩ := speakingRun_silent_within hang tv post hpost_sil hpost_t
  have hmid1 : (speakingRun hang (speakingRun hang last0 pre).1 ((tv, vp) :: post)).1
      = (speakingRun hang tv post).1 := by
    simp [speakingRun, hstep]
  have hmid2 : (speakingRun hang (speakingRun hang last0 pre).1 ((tv, vp) :: post)).2
      = true :: (speakingRun hang tv post).2 := by
    simp [speakingRun, hstep]
  refine ⟨fun last now p hp => by simp [speakingStep, hp],
    fun last now p hp => by simp [speakingStep, hp], ?_, ?_⟩
  · rw [happ1, hmid1, hsil1]
  · intro b hb
    rw [happ2, hmid2, ← speakingRun_length hang pre last0, List.drop_left] at hb
    rcases List.mem_cons.1 hb with hb | hb
    · exact hb
    · exact hsil2 b hb

/-- Witness for `speaking_hysteresis`: hangover 0.35, one silent
result at time 0, the voiced result at time 1, one raw-silent result
at time 1.2 (within the hangover of the voiced pair). -/
theorem speaking_hysteresis_witness :
    (rawSilence voicedPair = false ∧
      (∀ e ∈ [((6 : ℚ) / 5, silentPair)], rawSilence e.2 = true) ∧
      (∀ e ∈ [((6 : ℚ) / 5, silentPair)], e.1 - 1 ≤ 7 / 20)) ∧
    ((∀ (last now : ℚ) (p : AudioChunk × AudioChunk), rawSilence p = false →
        speakingStep (7 / 20) last now p = (now, true)) ∧
      (∀ (last now : ℚ) (p : AudioChunk × AudioChunk), rawSilence p = true →
        speakingStep (7 / 20) last now p = (last, decide (now - last ≤ 7 / 20))) ∧
      (speakingRun (7 / 20) 0
          ([(0, silentPair)] ++ (1, voicedPair) :: [((6 : ℚ) / 5, silentPair)])).1 = 1 ∧
      ∀ b ∈ ((speakingRun (7 / 20) 0
          ([(0, silentPair)] ++ (1, voicedPair) :: [((6 : ℚ) / 5, silentPair)])).2.drop
            [((0 : ℚ), silentPair)].length), b = true) :=
  ⟨⟨by decide, by decide, by norm_num⟩,
    speaking_hysteresis (7 / 20) 0 1 [(0, silentPair)] [((6 : ℚ) / 5, silentPair)]
      voicedPair (by decide) (by decide) (by norm_num)⟩

theorem put_audio_file_eq_map (c : Nat) (hc : 0 < c) :
    ∀ (n : Nat) (s : List Nat), s.length = n →
      put_audio_file c s
        = (List.range (s.length / c)).map fun i => (s.drop (c * i)).take c := by
  intro n
  induction n using Nat.strong_induction_on with
  | _ n ih =>
    intro s hs
    by_cases h : c ≤ s.length
    · have hdl : (s.drop c).length = s.length - c := by
        simp [List.length_drop]
      have ihs := ih (s.length - c) (by omega) (s.drop c) hdl
      have hq : s.length / c = (s.length - c) / c + 1 := by
        rw [Nat.div_eq s.length c, if_pos ⟨hc, h⟩]
      rw [put_audio_file, dif_pos ⟨hc, h⟩, ihs, hdl, hq, List.range_succ_eq_map,
        List.map_cons, List.map_map]
      congr 1
      apply List.map_congr_left
      intro a _
      simp only [Function.comp, Nat.succ_eq_add_one, List.drop_drop]
      congr 2
      ring
    · rw [put_audio_file, dif_neg (fun hh => h hh.2)]
      have h0 : s.length / c = 0 := Nat.div_eq_of_lt (by omega)
      simp [h0]

/-- C10: `put_audio_file` splits the decoded stream into consecutive
chunk-sized slices: it pushes exactly `floor(stream_length / chunk)`
chunks, the i-th being `stream[i*chunk : (i+1)*chunk]`, in offset
order; a trailing remainder shorter than one chunk is discarded, and a
stream shorter than one chunk produces no pushes at all. -/
theorem put_audio_file_spec (c : Nat) (s : List Nat) (hc : 0 < c) :
    (put_audio_file c s).length = s.length / c ∧
    put_audio_file c s
      = (List.range (s.length / c)).map (fun i => (s.drop (c * i)).take c) ∧
    (s.length < c → put_audio_file c s = []) := by
  have hmain := put_audio_file_eq_map c hc s.length s rfl
  refine ⟨?_, hmain, fun hlt => ?_⟩
  · rw [hmain]
    simp
  · rw [hmain, Nat.div_eq_of_lt hlt]
    simp

/-- Witness for `put_audio_file_spec`: chunk size 2 on a five-sample
stream — two chunks pushed, the final sample discarded. -/
theorem put_audio_file_spec_witness :
    0 < 2 ∧
    ((put_audio_file 2 [1, 2, 3, 4, 5]).length = [1, 2, 3, 4, 5].length / 2 ∧
      put_audio_file 2 [1, 2, 3, 4, 5]
        = (List.range ([1, 2, 3, 4, 5].length / 2)).map
            (fun i => ([1, 2, 3, 4, 5].drop (2 * i)).take 2) ∧
      ([1, 2, 3, 4, 5].length < 2 → put_audio_file 2 [1, 2, 3, 4, 5] = [])) :=
  ⟨by decide, put_audio_file_spec 2 [1, 2, 3, 4, 5] (by decide)⟩
